import Mathlib

/-!
# Shallow embedding of `git-timetable` (`src/main.rs`)

The program aggregates commit history across repositories: it opens each
repository, enumerates local branches, walks each branch's ancestry,
filters commits by an inclusive time range and an optional author
substring, concatenates everything, sorts by timestamp (stably) and
renders the result in `flat` or `daily` layout.

The external `git2` layer (repository opening, branch enumeration,
revwalk, commit lookup) is modelled as data: a `World` maps repository
paths to `RepoData`, whose fields hold the results the library calls
would return, fallible calls returning `Except Error`.  The `chrono`
parsing entry points are modelled as oracle functions in
`ChronoParsers`; `chrono`'s `NaiveDateTime` is represented by its
timestamp in seconds, and `NaiveDateTime::from_timestamp_opt` by its
documented validity range.
-/

/-- The error type: `anyhow::Error` in the source collapses all failure
kinds into one value; we keep the distinctions the code can produce. -/
inductive Error where
  /-- `Repository::open` failed. -/
  | repoOpen (path : String)
  /-- `repo.branches(..)` failed. -/
  | branchEnum
  /-- an item of the branch iterator was an error. -/
  | branchItem
  /-- `branch.name()` failed (non-UTF-8 name). -/
  | branchName
  /-- `branch.get().peel_to_commit()` failed. -/
  | peelToCommit
  /-- `repo.revwalk()` failed. -/
  | revwalkNew
  /-- `revwalk.push(oid)` failed. -/
  | revwalkPush
  /-- an item of the revwalk iterator was an error. -/
  | walkStep
  /-- `repo.find_commit(oid)` failed. -/
  | findCommit (oid : String)
  /-- neither chrono parse attempt succeeded (`chrono::ParseError`). -/
  | invalidDate
  /-- `bail!("unknown format: {}", format)`, carrying the mode string. -/
  | unknownFormat (format : String)
  deriving DecidableEq, Repr

/-- Metadata of one commit as surfaced by `git2::Commit`:
`id()`, `summary()`, `message()`, `author().to_string()`,
`time().seconds()`. -/
structure CommitData where
  id : String
  summary : Option String
  message : Option String
  author : String
  time : Int
  deriving DecidableEq, Repr

/-- One entry of the branch iterator: the results `branch.name()` and
`branch.get().peel_to_commit().id()` would return. -/
structure BranchData where
  name : Except Error (Option String)
  peel_to_commit : Except Error String
  deriving Repr

/-- The observable behaviour of one opened `git2::Repository`. -/
structure RepoData where
  /-- `repo.branches(Some(BranchType::Local))`, as a list of iterator items. -/
  branches : Except Error (List (Except Error BranchData))
  /-- `repo.revwalk()`. -/
  revwalk : Except Error Unit
  /-- `revwalk.push(oid)`. -/
  revwalk_push : String → Except Error Unit
  /-- the items yielded by iterating the revwalk pushed at `oid`:
  every commit reachable from that tip, in the library's walk order. -/
  walk : String → List (Except Error String)
  /-- `repo.find_commit(oid)`. -/
  find_commit : String → Except Error CommitData

/-- The file-system contents seen by `Repository::open`. -/
structure World where
  openRepo : String → Except Error RepoData

/-- Rust `Range<i64>` as used for the time window (`since..until`). -/
structure TimeRange where
  start : Int
  «end» : Int
  deriving DecidableEq, Repr

/-- The record struct `RepoAndCommit` of the source. -/
structure RepoAndCommit where
  message : String
  summary : String
  author : String
  commit : String
  branch : String
  repo : String
  date : Int
  deriving DecidableEq, Repr

/-- `RepoAndCommit::new`. -/
def RepoAndCommit.new (repo branch : String) (commit : CommitData) : RepoAndCommit :=
  { summary := commit.summary.getD "No summary"
    message := commit.message.getD "No message"
    author := commit.author
    commit := commit.id
    date := commit.time
    repo := repo
    branch := branch }

/-- Rust `str::contains` with a string pattern: literal case-sensitive
substring test. -/
def str_contains (hay needle : String) : Bool :=
  decide (List.IsInfix needle.data hay.data)

/-- Body of the revwalk loop in `list_commits` once the commit is
resolved: the time-range test, record construction and the author test.
`none` models `continue` (the commit is skipped). -/
def keep_commit (repo_path branch_name : String) (time_range : TimeRange)
    (author : Option String) (commit : CommitData) : Option RepoAndCommit :=
  let date := commit.time
  if date < time_range.start ∨ date > time_range.«end» then
    none
  else
    let repo_and_commit := RepoAndCommit.new repo_path branch_name commit
    match author with
    | some a =>
      if !(str_contains repo_and_commit.author a) then none
      else some repo_and_commit
    | none => some repo_and_commit

/-- The `for oid in revwalk` loop of `list_commits`. -/
def walk_commits (repo : RepoData) (repo_path branch_name : String)
    (time_range : TimeRange) (author : Option String) :
    List (Except Error String) → Except Error (List RepoAndCommit)
  | [] => .ok []
  | oidRes :: rest => do
    let oid ← oidRes
    let commit ← repo.find_commit oid
    let tail ← walk_commits repo repo_path branch_name time_range author rest
    match keep_commit repo_path branch_name time_range author commit with
    | some repo_and_commit => return repo_and_commit :: tail
    | none => return tail

/-- The `for branch in branches` loop of `list_commits`. -/
def branches_loop (repo : RepoData) (repo_path : String) (time_range : TimeRange)
    (author : Option String) :
    List (Except Error BranchData) → Except Error (List RepoAndCommit)
  | [] => .ok []
  | branchRes :: rest => do
    let branch ← branchRes
    let nameOpt ← branch.name
    let branch_name := nameOpt.getD "No branch"
    let branch_oid ← branch.peel_to_commit
    let _ ← repo.revwalk
    let _ ← repo.revwalk_push branch_oid
    let here ← walk_commits repo repo_path branch_name time_range author
      (repo.walk branch_oid)
    let there ← branches_loop repo repo_path time_range author rest
    return here ++ there

/-- `list_commits` of the source. -/
def list_commits (world : World) (repo_path : String) (time_range : TimeRange)
    (author : Option String) : Except Error (List RepoAndCommit) := do
  let repo ← world.openRepo repo_path
  let branches ← repo.branches
  branches_loop repo repo_path time_range author branches

/-- The chrono parsing entry points used by `parse_lenient`, as oracles.
`parse_from_rfc3339` stands for
`DateTime::parse_from_rfc3339(s).map(|dt| dt.timestamp())`;
`parse_from_str_ymd` stands for
`NaiveDate::parse_from_str(s, "%Y-%m-%d")`, the date being represented by
its day number relative to 1970-01-01.  `none` models a `ParseError`. -/
structure ChronoParsers where
  parse_from_rfc3339 : String → Option Int
  parse_from_str_ymd : String → Option Int

/-- `i64::MAX`. -/
def i64_MAX : Int := 2 ^ 63 - 1

/-- `parse_lenient` of the source.  For a bare date `d` the source takes
`d.and_hms_opt(0, 0, 0).unwrap().timestamp()`: midnight of that day,
i.e. `day * 86400` seconds. -/
def parse_lenient (P : ChronoParsers) (s : String) : Except Error Int :=
  match P.parse_from_rfc3339 s with
  | some t => .ok t
  | none =>
    match P.parse_from_str_ymd s with
    | some d => .ok (d * 86400)
    | none => .error .invalidDate

/-- `parse_time_range` of the source. -/
def parse_time_range (P : ChronoParsers) (since «until» : Option String) :
    Except Error TimeRange := do
  let since ← match since with
    | some date => parse_lenient P date
    | none => .ok 0
  let u ← match «until» with
    | some date => parse_lenient P date
    | none => .ok i64_MAX
  return ⟨since, u⟩

/-- Modelled from chrono (external dependency): the timestamp of
`NaiveDateTime::MIN`, the smallest value accepted by
`NaiveDateTime::from_timestamp_opt`. -/
def chrono_min_timestamp : Int := -8334632851200

/-- Modelled from chrono: the timestamp of `NaiveDateTime::MAX`. -/
def chrono_max_timestamp : Int := 8210298412799

/-- Modelled from chrono: `NaiveDateTime::from_timestamp_opt(secs, 0)`
succeeds exactly on the representable range; the resulting
`NaiveDateTime` is represented by its timestamp. -/
def from_timestamp_opt (secs : Int) : Option Int :=
  if chrono_min_timestamp ≤ secs ∧ secs ≤ chrono_max_timestamp then some secs
  else none

/-- `RepoAndCommit::date`, with the `unwrap` made explicit: `none`
models the panic. -/
def RepoAndCommit.dateOpt (c : RepoAndCommit) : Option Int :=
  from_timestamp_opt c.date

/-- `NaiveDateTime::date()`: the day number of the timestamp. -/
def ndtDate (ndt : Int) : Int := Int.fdiv ndt 86400

/-- `NaiveDateTime::time()`: the second of the day. -/
def ndtTime (ndt : Int) : Int := Int.emod ndt 86400

/-- Two-digit zero padding. -/
def pad2 (n : Int) : String := (if n < 10 then "0" else "") ++ toString n

/-- Civil (proleptic Gregorian) date of a day number relative to
1970-01-01, as `(year, month, day)`. -/
def civil_from_days (z0 : Int) : Int × Int × Int :=
  let z := z0 + 719468
  let era := Int.fdiv z 146097
  let doe := z - era * 146097
  let yoe := Int.fdiv (doe - Int.fdiv doe 1460 + Int.fdiv doe 36524 - Int.fdiv doe 146096) 365
  let y := yoe + era * 400
  let doy := doe - (365 * yoe + Int.fdiv yoe 4 - Int.fdiv yoe 100)
  let mp := Int.fdiv (5 * doy + 2) 153
  let d := doy - Int.fdiv (153 * mp + 2) 5 + 1
  let m := mp + (if mp < 10 then 3 else -9)
  (y + (if m ≤ 2 then 1 else 0), m, d)

/-- Display of a `NaiveDate` (day number), `%Y-%m-%d`. -/
def fmtDate (days : Int) : String :=
  let ymd := civil_from_days days
  toString ymd.1 ++ "-" ++ pad2 ymd.2.1 ++ "-" ++ pad2 ymd.2.2

/-- Display of a `NaiveTime` (second of day), `%H:%M:%S`. -/
def fmtTime (secOfDay : Int) : String :=
  pad2 (secOfDay / 3600) ++ ":" ++ pad2 (secOfDay / 60 % 60) ++ ":" ++ pad2 (secOfDay % 60)

/-- Display of a `NaiveDateTime` (timestamp), `%Y-%m-%d %H:%M:%S`. -/
def fmtDateTime (ndt : Int) : String :=
  fmtDate (ndtDate ndt) ++ " " ++ fmtTime (ndtTime ndt)

/-- One line of `flat` output:
`"{}\t{}\t{}\t{}\t{}\t{}"` with date-time, repo, branch, commit id,
summary, author.  `none` models the panic of `commit.date()`. -/
def flat_line (c : RepoAndCommit) : Option String :=
  c.dateOpt.map (fun ndt =>
    fmtDateTime ndt ++ "\t" ++ c.repo ++ "\t" ++ c.branch ++ "\t" ++
      c.commit ++ "\t" ++ c.summary ++ "\t" ++ c.author)

/-- The `"flat"` arm of the `match` in `main`: one line per record. -/
def render_flat (commits : List RepoAndCommit) : Option (List String) :=
  commits.mapM flat_line

/-- `Itertools::group_by`: splits a list into maximal runs of
consecutive elements sharing a key. -/
def group_by {α κ : Type} [DecidableEq κ] (key : α → κ) :
    List α → List (κ × List α)
  | [] => []
  | x :: xs =>
    match group_by key xs with
    | [] => [(key x, [x])]
    | (k, g) :: rest =>
      if key x = k then (key x, x :: g) :: rest
      else (key x, [x]) :: (k, g) :: rest

/-- One detail line of `daily` output:
`"\t\t{}\t{}\t{}\t{}\t{}"` with time, repo, branch, summary, author
(the commit id is omitted).  `none` models the panic of
`commit.date()`. -/
def daily_record_line (c : RepoAndCommit) : Option String :=
  c.dateOpt.map (fun ndt =>
    "\t\t" ++ fmtTime (ndtTime ndt) ++ "\t" ++ c.repo ++ "\t" ++ c.branch ++
      "\t" ++ c.summary ++ "\t" ++ c.author)

/-- One group of `daily` output: the date header line followed by the
detail lines of the run. -/
def daily_group_lines (g : Option Int × List RepoAndCommit) :
    Option (List String) := do
  let d ← g.1
  let lines ← g.2.mapM daily_record_line
  return fmtDate d :: lines

/-- The `"daily"` arm of the `match` in `main`: group consecutive
records by `x.date().date()` and print a header per group. -/
def render_daily (commits : List RepoAndCommit) : Option (List String) :=
  ((group_by (fun c => c.dateOpt.map ndtDate) commits).mapM daily_group_lines).map
    List.flatten

/-- The format `match` of `main`.  The outer `Except` is the program's
result, the inner `Option` models panic-freedom of the date
conversions while printing. -/
def render (format : String) (commits : List RepoAndCommit) :
    Except Error (Option (List String)) :=
  match format with
  | "flat" => .ok (render_flat commits)
  | "daily" => .ok (render_daily commits)
  | _ => .error (.unknownFormat format)

/-- The parsed command line (`struct Args`). -/
structure Args where
  repositories : List String
  since : Option String
  «until» : Option String
  format : Option String
  author : Option String

/-- `opts.format.map(|x| x).unwrap_or("flat".to_string())`. -/
def resolve_format (format : Option String) : String :=
  (format.map (fun x => x)).getD "flat"

/-- The repository loop of `main`:
`for repo_path in repositories { commits.extend(list_commits(..)?); }`. -/
def collect_commits (world : World) (time_range : TimeRange)
    (author : Option String) : List String → Except Error (List RepoAndCommit)
  | [] => .ok []
  | repo_path :: rest => do
    let here ← list_commits world repo_path time_range author
    let there ← collect_commits world time_range author rest
    return here ++ there

/-- The sort key comparison of `commits.sort_by_key(|c| c.date)`;
`sort_by_key` is a stable sort, modelled by `List.mergeSort`. -/
def commit_le (a b : RepoAndCommit) : Bool := decide (a.date ≤ b.date)

/-- `main` after argument parsing: parse the time range, collect the
commits of every repository in order, sort stably by timestamp, render. -/
def run_pipeline (world : World) (P : ChronoParsers) (opts : Args) :
    Except Error (Option (List String)) := do
  let time_range ← parse_time_range P opts.since opts.«until»
  let format := resolve_format opts.format
  let commits ← collect_commits world time_range opts.author opts.repositories
  let commits := commits.mergeSort commit_le
  render format commits

/-- The kept records of one branch, assuming every revwalk item and
commit lookup succeeds: resolve each oid and apply the filter body. -/
def branch_records (repo : RepoData) (repo_path branch_name : String)
    (time_range : TimeRange) (author : Option String) (oids : List String) :
    List RepoAndCommit :=
  oids.filterMap (fun oid =>
    (repo.find_commit oid).toOption.bind
      (keep_commit repo_path branch_name time_range author))

/-- Branch name as computed by the loop (`name()?.unwrap_or("No branch")`),
for a branch whose `name` call succeeds. -/
def branch_name_of (b : BranchData) : String :=
  (b.name.toOption.getD none).getD "No branch"

/-- Tip oid of a branch whose `peel_to_commit` call succeeds. -/
def tip_of (b : BranchData) : String :=
  b.peel_to_commit.toOption.getD ""

/-- Oids yielded by the revwalk at `tip`, when all items are `ok`. -/
def oids_of (repo : RepoData) (tip : String) : List String :=
  (repo.walk tip).filterMap Except.toOption

/-- All external calls of one branch iteration succeed. -/
def BranchOk (repo : RepoData) (b : BranchData) : Prop :=
  (∃ n, b.name = .ok n) ∧ (∃ t, b.peel_to_commit = .ok t) ∧
  (∃ u, repo.revwalk = .ok u) ∧
  (∃ u, repo.revwalk_push (tip_of b) = .ok u) ∧
  repo.walk (tip_of b) = (oids_of repo (tip_of b)).map Except.ok ∧
  ∀ o ∈ oids_of repo (tip_of b), ∃ c, repo.find_commit o = .ok c

/-- Total form of `flat_line` for an in-range timestamp (where
`from_timestamp_opt` returns the timestamp itself). -/
def flat_line_str (c : RepoAndCommit) : String :=
  fmtDateTime c.date ++ "\t" ++ c.repo ++ "\t" ++ c.branch ++ "\t" ++
    c.commit ++ "\t" ++ c.summary ++ "\t" ++ c.author

/-- Total form of `daily_record_line` for an in-range timestamp (where
`from_timestamp_opt` returns the timestamp itself): time-of-day,
repository, branch, summary and author, without the commit id. -/
def daily_line (c : RepoAndCommit) : String :=
  "\t\t" ++ fmtTime (ndtTime c.date) ++ "\t" ++ c.repo ++ "\t" ++ c.branch ++
    "\t" ++ c.summary ++ "\t" ++ c.author

/-- A record fixture on calendar day 0 used by witnesses. -/
def rec_a : RepoAndCommit := ⟨"m1", "s1", "a1", "c1", "b1", "r1", 100⟩

/-- A record fixture on calendar day 1 used by witnesses. -/
def rec_b : RepoAndCommit := ⟨"m2", "s2", "a2", "c2", "b2", "r2", 90000⟩

/-- A commit fixture used by witnesses. -/
def c_alice : CommitData := ⟨"aaa", some "s1", some "m1", "Alice <a@x.com>", 100⟩

/-- Another commit fixture used by witnesses. -/
def c_bob : CommitData := ⟨"bbb", some "s2", some "m2", "Bob <b@y.com>", 50⟩

/-- A two-branch repository fixture: both branch tips reach commit
`"aaa"`, the first also reaches `"bbb"`. -/
def repo_fix : RepoData where
  branches := .ok [.ok ⟨.ok (some "main"), .ok "t1"⟩, .ok ⟨.ok (some "dev"), .ok "t2"⟩]
  revwalk := .ok ()
  revwalk_push := fun _ => .ok ()
  walk := fun t =>
    if t = "t1" then [.ok "aaa", .ok "bbb"]
    else if t = "t2" then [.ok "aaa"]
    else []
  find_commit := fun o =>
    if o = "aaa" then .ok c_alice
    else if o = "bbb" then .ok c_bob
    else .error (.findCommit o)

/-- A world holding `repo_fix` at path `"repo1"`. -/
def world_fix : World :=
  ⟨fun p => if p = "repo1" then .ok repo_fix else .error (.repoOpen p)⟩

/-! ## Helper lemmas -/

theorem ok_bind {ε α β : Type} (a : α) (f : α → Except ε β) :
    (Except.ok a >>= f : Except ε β) = f a := rfl

theorem error_bind {ε α β : Type} (e : ε) (f : α → Except ε β) :
    (Except.error e >>= f : Except ε β) = .error e := rfl

theorem keep_commit_time_none (repo_path branch_name : String) (tr : TimeRange)
    (author : Option String) (c : CommitData)
    (h : c.time < tr.start ∨ c.time > tr.«end») :
    keep_commit repo_path branch_name tr author c = none := by
  simp [keep_commit, h]

theorem keep_commit_eq_some (repo_path branch_name : String) (tr : TimeRange)
    (author : Option String) (c : CommitData)
    (ht : tr.start ≤ c.time ∧ c.time ≤ tr.«end»)
    (ha : ∀ a ∈ author, str_contains c.author a = true) :
    keep_commit repo_path branch_name tr author c =
      some (RepoAndCommit.new repo_path branch_name c) := by
  have h1 : ¬(c.time < tr.start ∨ c.time > tr.«end») := by omega
  cases author with
  | none => simp [keep_commit, h1]
  | some a =>
    have := ha a rfl
    simp [keep_commit, h1, RepoAndCommit.new, this]

theorem keep_commit_isSome_none_author (repo_path branch_name : String)
    (tr : TimeRange) (c : CommitData) :
    (keep_commit repo_path branch_name tr none c).isSome =
      decide (tr.start ≤ c.time ∧ c.time ≤ tr.«end») := by
  by_cases h : c.time < tr.start ∨ c.time > tr.«end»
  · rw [keep_commit_time_none _ _ _ _ _ h]
    simp
    omega
  · push_neg at h
    rw [keep_commit_eq_some _ _ _ _ _ ⟨h.1, h.2⟩ (by simp)]
    simp
    omega

theorem str_contains_iff (hay needle : String) :
    str_contains hay needle = true ↔ List.IsInfix needle.data hay.data := by
  simp [str_contains]

theorem new_author (rp bn : String) (c : CommitData) :
    (RepoAndCommit.new rp bn c).author = c.author := rfl

theorem new_commit_id (rp bn : String) (c : CommitData) :
    (RepoAndCommit.new rp bn c).commit = c.id := rfl

theorem new_branch (rp bn : String) (c : CommitData) :
    (RepoAndCommit.new rp bn c).branch = bn := rfl

theorem new_date (rp bn : String) (c : CommitData) :
    (RepoAndCommit.new rp bn c).date = c.time := rfl

/-- C1: a commit visited during a walk is kept by the time filter iff
`time_range.start ≤ timestamp ≤ time_range.end`, both bounds inclusive;
in particular a commit whose timestamp equals the `until` bound is
kept. -/
theorem time_filter_inclusive (repo_path branch_name : String) (tr : TimeRange)
    (c : CommitData) :
    ((keep_commit repo_path branch_name tr none c).isSome ↔
        (tr.start ≤ c.time ∧ c.time ≤ tr.«end»)) ∧
    (∀ author, (keep_commit repo_path branch_name tr author c).isSome →
        tr.start ≤ c.time ∧ c.time ≤ tr.«end») ∧
    (c.time = tr.«end» → tr.start ≤ c.time →
        (keep_commit repo_path branch_name tr none c).isSome) := by
  refine ⟨?_, ?_, ?_⟩
  · rw [keep_commit_isSome_none_author]
    simp
  · intro author h
    by_contra hc
    rw [keep_commit_time_none _ _ _ _ _ (by omega)] at h
    simp at h
  · intro h1 h2
    rw [keep_commit_isSome_none_author]
    simp
    omega

theorem time_filter_inclusive_witness :
    (keep_commit "r" "b" ⟨0, 10⟩ none ⟨"id", none, none, "alice", 10⟩).isSome := by
  exact (time_filter_inclusive "r" "b" ⟨0, 10⟩
    ⟨"id", none, none, "alice", 10⟩).2.2 rfl (by decide)

/-- C3: with an author filter configured, a commit is kept iff its author
identifier contains the filter string as a literal case-sensitive
substring (and the time test passes); with no author filter, every
commit passing the time test is kept. -/
theorem author_filter_substring (repo_path branch_name : String) (tr : TimeRange)
    (a : String) (c : CommitData) :
    ((keep_commit repo_path branch_name tr (some a) c).isSome ↔
      ((tr.start ≤ c.time ∧ c.time ≤ tr.«end») ∧
        List.IsInfix a.data (RepoAndCommit.new repo_path branch_name c).author.data)) ∧
    ((keep_commit repo_path branch_name tr none c).isSome ↔
      (tr.start ≤ c.time ∧ c.time ≤ tr.«end»)) := by
  constructor
  · by_cases h : c.time < tr.start ∨ c.time > tr.«end»
    · rw [keep_commit_time_none _ _ _ _ _ h]
      simp only [Option.isSome_none, Bool.false_eq_true, false_iff]
      rintro ⟨⟨h1, h2⟩, -⟩
      omega
    · push_neg at h
      by_cases hs : str_contains c.author a = true
      · rw [keep_commit_eq_some _ _ _ _ _ ⟨h.1, h.2⟩
          (by intro x hx; cases hx; exact hs)]
        simp only [Option.isSome_some, true_iff]
        exact ⟨⟨h.1, h.2⟩, by rw [new_author]; exact (str_contains_iff _ _).mp hs⟩
      · have hnone : keep_commit repo_path branch_name tr (some a) c = none := by
          simp only [keep_commit]
          rw [if_neg (by omega)]
          simp [new_author, hs]
        rw [hnone]
        simp only [Option.isSome_none, Bool.false_eq_true, false_iff]
        rintro ⟨-, hinf⟩
        exact hs ((str_contains_iff _ _).mpr (by rwa [new_author] at hinf))
  · rw [keep_commit_isSome_none_author]
    simp

theorem map_ok {e a b : Type} (f : a → b) (x : a) :
    (f <$> (Except.ok x : Except e a)) = .ok (f x) := rfl

theorem pure_eq_ok {e a : Type} (x : a) :
    (pure x : Except e a) = .ok x := rfl

theorem walk_commits_ok (repo : RepoData) (rp bn : String) (tr : TimeRange)
    (author : Option String) (oids : List String)
    (hfind : ∀ o ∈ oids, ∃ c, repo.find_commit o = .ok c) :
    walk_commits repo rp bn tr author (oids.map Except.ok) =
      .ok (branch_records repo rp bn tr author oids) := by
  induction oids with
  | nil => rfl
  | cons o rest ih =>
    obtain ⟨c, hc⟩ := hfind o (by simp)
    have ih2 := ih (fun x hx => hfind x (by simp [hx]))
    simp only [List.map_cons, walk_commits, ok_bind, hc, ih2]
    cases hk : keep_commit rp bn tr author c with
    | none =>
      simp [branch_records, List.filterMap_cons, hc, Except.toOption, hk, pure_eq_ok]
    | some rc =>
      simp [branch_records, List.filterMap_cons, hc, Except.toOption, hk, pure_eq_ok]

theorem branches_loop_ok (repo : RepoData) (rp : String) (tr : TimeRange)
    (author : Option String) (bs : List BranchData)
    (h : ∀ b ∈ bs, BranchOk repo b) :
    branches_loop repo rp tr author (bs.map Except.ok) =
      .ok ((bs.map (fun b =>
        branch_records repo rp (branch_name_of b) tr author
          (oids_of repo (tip_of b)))).flatten) := by
  induction bs with
  | nil => rfl
  | cons b rest ih =>
    obtain ⟨⟨n, hn⟩, ⟨t, ht⟩, ⟨u1, hrw⟩, ⟨u2, hpush⟩, hwalk, hfind⟩ := h b (by simp)
    have hname : branch_name_of b = n.getD "No branch" := by
      simp [branch_name_of, hn, Except.toOption]
    have htip : tip_of b = t := by simp [tip_of, ht, Except.toOption]
    have ih2 := ih (fun x hx => h x (by simp [hx]))
    rw [htip] at hwalk hfind hpush
    simp only [List.map_cons, branches_loop, ok_bind, hn, ht, hrw, hpush, hwalk,
      walk_commits_ok repo rp (n.getD "No branch") tr author _ hfind, ih2,
      map_ok, pure_eq_ok]
    simp [hname, htip]

theorem list_commits_ok (world : World) (rp : String) (tr : TimeRange)
    (author : Option String) (repo : RepoData) (bs : List BranchData)
    (hopen : world.openRepo rp = .ok repo)
    (hbr : repo.branches = .ok (bs.map Except.ok))
    (h : ∀ b ∈ bs, BranchOk repo b) :
    list_commits world rp tr author =
      .ok ((bs.map (fun b =>
        branch_records repo rp (branch_name_of b) tr author
          (oids_of repo (tip_of b)))).flatten) := by
  simp only [list_commits, hopen, ok_bind, hbr, branches_loop_ok repo rp tr author bs h]

theorem commit_le_trans : ∀ (a b c : RepoAndCommit),
    commit_le a b → commit_le b c → commit_le a c := by
  intro a b c hab hbc
  simp [commit_le] at *
  omega

theorem commit_le_total : ∀ (a b : RepoAndCommit),
    commit_le a b || commit_le b a := by
  intro a b
  simp [commit_le]
  omega

theorem mergeSort_commit_pairwise (l : List RepoAndCommit) :
    List.Pairwise (fun a b => a.date ≤ b.date) (l.mergeSort commit_le) := by
  have h := List.sorted_mergeSort commit_le_trans commit_le_total l
  exact h.imp (by intro a b hab; simpa [commit_le] using hab)

theorem mergeSort_filter_date (l : List RepoAndCommit) (t : Int) :
    (l.mergeSort commit_le).filter (fun c => c.date == t) =
      l.filter (fun c => c.date == t) := by
  have hsub : List.Sublist (l.filter (fun c => c.date == t)) (l.mergeSort commit_le) := by
    apply List.sublist_mergeSort commit_le_trans commit_le_total
    · apply List.pairwise_of_forall_mem_list
      intro a ha b hb
      have ha2 := (List.mem_filter.mp ha).2
      have hb2 := (List.mem_filter.mp hb).2
      simp only [beq_iff_eq] at ha2 hb2
      simp [commit_le, ha2, hb2]
    · exact List.filter_sublist l
  have hperm : List.Perm ((l.mergeSort commit_le).filter (fun c => c.date == t))
      (l.filter (fun c => c.date == t)) :=
    (List.mergeSort_perm l commit_le).filter _
  have hsub2 : List.Sublist (l.filter (fun c => c.date == t))
      ((l.mergeSort commit_le).filter (fun c => c.date == t)) := by
    have h2 := hsub.filter (fun c => c.date == t)
    rw [List.filter_filter] at h2
    simpa only [Bool.and_self] using h2
  exact (hsub2.eq_of_length hperm.length_eq.symm).symm

theorem collect_commits_ok (world : World) (tr : TimeRange)
    (author : Option String) (repos : List String)
    (h : ∀ p ∈ repos, ∃ l, list_commits world p tr author = .ok l) :
    collect_commits world tr author repos =
      .ok ((repos.map (fun p =>
        (list_commits world p tr author).toOption.getD [])).flatten) := by
  induction repos with
  | nil => rfl
  | cons p rest ih =>
    obtain ⟨l, hl⟩ := h p (by simp)
    have ih2 := ih (fun x hx => h x (by simp [hx]))
    simp only [collect_commits, hl, ok_bind, ih2, List.map_cons, List.flatten_cons,
      pure_eq_ok, Except.toOption]
    simp

/-- C2: the aggregator concatenates the kept records of all repositories
in processing order and sorts the whole collection by timestamp
ascending with a stable sort: records with equal timestamps keep the
order in which they were produced, and consecutive records of the
sorted output have nondecreasing timestamps. -/
theorem aggregator_concat_stable_sort (world : World) (tr : TimeRange)
    (author : Option String) (repos : List String)
    (h : ∀ p ∈ repos, ∃ l, list_commits world p tr author = .ok l) :
    ∃ l, collect_commits world tr author repos = .ok l ∧
      l = (repos.map (fun p =>
        (list_commits world p tr author).toOption.getD [])).flatten ∧
      List.Pairwise (fun a b => a.date ≤ b.date) (l.mergeSort commit_le) ∧
      (∀ t : Int, (l.mergeSort commit_le).filter (fun c => c.date == t) =
        l.filter (fun c => c.date == t)) ∧
      (∀ i : Nat, ∀ hi : i + 1 < (l.mergeSort commit_le).length,
        ((l.mergeSort commit_le).get ⟨i, by omega⟩).date ≤
          ((l.mergeSort commit_le).get ⟨i + 1, hi⟩).date) := by
  refine ⟨_, collect_commits_ok world tr author repos h, rfl,
    mergeSort_commit_pairwise _, fun t => mergeSort_filter_date _ t, ?_⟩
  intro i hi
  have pw := mergeSort_commit_pairwise
    ((repos.map (fun p =>
      (list_commits world p tr author).toOption.getD [])).flatten)
  have h2 := List.pairwise_iff_getElem.mp pw i (i + 1) (by omega) hi (by omega)
  simpa using h2

theorem aggregator_concat_stable_sort_witness :
    ∃ l, collect_commits world_fix ⟨0, 1000⟩ none ["repo1"] = .ok l ∧
      l = ((["repo1"].map (fun p =>
        (list_commits world_fix p ⟨0, 1000⟩ none).toOption.getD [])).flatten) ∧
      List.Pairwise (fun a b => a.date ≤ b.date) (l.mergeSort commit_le) ∧
      (∀ t : Int, (l.mergeSort commit_le).filter (fun c => c.date == t) =
        l.filter (fun c => c.date == t)) ∧
      (∀ i : Nat, ∀ hi : i + 1 < (l.mergeSort commit_le).length,
        ((l.mergeSort commit_le).get ⟨i, by omega⟩).date ≤
          ((l.mergeSort commit_le).get ⟨i + 1, hi⟩).date) :=
  aggregator_concat_stable_sort world_fix ⟨0, 1000⟩ none ["repo1"]
    (by intro p hp; cases hp with
      | head => exact ⟨_, rfl⟩
      | tail _ h2 => cases h2)

/-- C4: each bound present is parsed by first attempting RFC 3339 and on
failure falling back to a bare `YYYY-MM-DD` date taken at midnight; if
both attempts fail the call errors; absent `since` defaults to `0`,
absent `until` defaults to `i64::MAX`. -/
theorem time_range_parsing (P : ChronoParsers) (s : String) :
    (∀ t, P.parse_from_rfc3339 s = some t → parse_lenient P s = .ok t) ∧
    (∀ d, P.parse_from_rfc3339 s = none → P.parse_from_str_ymd s = some d →
      parse_lenient P s = .ok (d * 86400) ∧ Int.emod (d * 86400) 86400 = 0) ∧
    (P.parse_from_rfc3339 s = none → P.parse_from_str_ymd s = none →
      parse_lenient P s = .error .invalidDate) ∧
    parse_time_range P none none = .ok ⟨0, i64_MAX⟩ ∧
    (∀ u r, parse_time_range P none u = .ok r → r.start = 0) ∧
    (∀ s2 r, parse_time_range P s2 none = .ok r → r.«end» = i64_MAX) := by
  refine ⟨?_, ?_, ?_, rfl, ?_, ?_⟩
  · intro t ht
    simp [parse_lenient, ht]
  · intro d h1 h2
    refine ⟨by simp [parse_lenient, h1, h2], ?_⟩
    exact Int.mul_emod_left d 86400
  · intro h1 h2
    simp [parse_lenient, h1, h2]
  · intro u r hr
    cases u with
    | none =>
      simp only [parse_time_range, ok_bind, pure_eq_ok] at hr
      cases hr
      rfl
    | some date =>
      simp only [parse_time_range, ok_bind] at hr
      cases hp : parse_lenient P date with
      | ok v =>
        rw [hp, ok_bind, pure_eq_ok] at hr
        cases hr
        rfl
      | error e =>
        rw [hp, error_bind] at hr
        cases hr
  · intro s2 r hr
    cases s2 with
    | none =>
      simp only [parse_time_range, ok_bind, pure_eq_ok] at hr
      cases hr
      rfl
    | some date =>
      simp only [parse_time_range] at hr
      cases hp : parse_lenient P date with
      | ok v =>
        rw [hp, ok_bind, ok_bind, pure_eq_ok] at hr
        cases hr
        rfl
      | error e =>
        rw [hp, error_bind] at hr
        cases hr

theorem time_range_parsing_witness :
    parse_lenient ⟨fun _ => none,
        fun s => if s = "2024-01-15" then some 19737 else none⟩ "2024-01-15" =
      .ok (19737 * 86400) ∧
    Int.emod (19737 * 86400) 86400 = 0 :=
  (time_range_parsing ⟨fun _ => none,
      fun s => if s = "2024-01-15" then some 19737 else none⟩ "2024-01-15").2.1
    19737 rfl (by decide)

/-- C7: rendering with a mode other than `"flat"` or `"daily"` fails with
an error carrying the invalid mode string and produces no output lines;
an absent format option defaults to `"flat"`. -/
theorem unknown_format_error (format : String) (commits : List RepoAndCommit)
    (h1 : format ≠ "flat") (h2 : format ≠ "daily") :
    render format commits = .error (.unknownFormat format) ∧
    resolve_format none = "flat" := by
  refine ⟨?_, rfl⟩
  unfold render
  split
  · exact absurd rfl h1
  · exact absurd rfl h2
  · rfl

theorem unknown_format_error_witness :
    render "json" [] = .error (.unknownFormat "json") ∧
    resolve_format none = "flat" :=
  unknown_format_error "json" [] (by decide) (by decide)

/-- C9: the pipeline is deterministic: two runs on the same repository
state with identical arguments produce identical output. -/
theorem pipeline_deterministic (w1 w2 : World) (P1 P2 : ChronoParsers)
    (o1 o2 : Args) (hw : w1 = w2) (hP : P1 = P2) (ho : o1 = o2) :
    run_pipeline w1 P1 o1 = run_pipeline w2 P2 o2 := by
  rw [hw, hP, ho]

theorem pipeline_deterministic_witness :
    run_pipeline world_fix ⟨fun _ => none, fun _ => none⟩
        ⟨["repo1"], none, none, none, none⟩ =
      run_pipeline world_fix ⟨fun _ => none, fun _ => none⟩
        ⟨["repo1"], none, none, none, none⟩ :=
  pipeline_deterministic world_fix world_fix ⟨fun _ => none, fun _ => none⟩
    ⟨fun _ => none, fun _ => none⟩ ⟨["repo1"], none, none, none, none⟩
    ⟨["repo1"], none, none, none, none⟩ rfl rfl rfl

theorem collect_commits_error (world : World) (tr : TimeRange)
    (author : Option String) (repos : List String) (p : String) (e : Error)
    (hp : p ∈ repos) (he : list_commits world p tr author = .error e) :
    ∃ e2, collect_commits world tr author repos = .error e2 := by
  induction repos with
  | nil => cases hp
  | cons q rest ih =>
    cases hq : list_commits world q tr author with
    | error e3 => exact ⟨e3, by simp [collect_commits, hq, error_bind]⟩
    | ok l =>
      cases hp with
      | head => simp [he] at hq
      | tail _ hp2 =>
        obtain ⟨e2, h2⟩ := ih hp2
        exact ⟨e2, by simp [collect_commits, hq, ok_bind, h2, error_bind]⟩

/-- C5: every error at any stage (unparseable date, failing repository,
bad branch, walk failure, unknown format) is fatal to the whole run:
one failing repository in a multi-repository invocation makes the whole
pipeline return an error. -/
theorem errors_are_fatal (world : World) (P : ChronoParsers) (opts : Args) :
    (∀ e, parse_time_range P opts.since opts.«until» = .error e →
      run_pipeline world P opts = .error e) ∧
    (∀ tr p e, parse_time_range P opts.since opts.«until» = .ok tr →
      p ∈ opts.repositories → list_commits world p tr opts.author = .error e →
      ∃ e2, run_pipeline world P opts = .error e2) ∧
    (∀ tr l fmt, parse_time_range P opts.since opts.«until» = .ok tr →
      collect_commits world tr opts.author opts.repositories = .ok l →
      opts.format = some fmt → fmt ≠ "flat" → fmt ≠ "daily" →
      run_pipeline world P opts = .error (.unknownFormat fmt)) := by
  refine ⟨?_, ?_, ?_⟩
  · intro e he
    simp [run_pipeline, he, error_bind]
  · intro tr p e hparse hp he
    obtain ⟨e2, h2⟩ :=
      collect_commits_error world tr opts.author opts.repositories p e hp he
    exact ⟨e2, by simp [run_pipeline, hparse, ok_bind, h2, error_bind]⟩
  · intro tr l fmt hparse hcol hfmt h1 h2
    simp only [run_pipeline, hparse, ok_bind, hcol, hfmt]
    have hres : resolve_format (some fmt) = fmt := rfl
    rw [hres]
    unfold render
    split
    · exact absurd rfl h1
    · exact absurd rfl h2
    · rfl

theorem errors_are_fatal_witness :
    ∃ e2, run_pipeline ⟨fun p => .error (.repoOpen p)⟩
      ⟨fun _ => none, fun _ => none⟩
      ⟨["bad"], none, none, none, none⟩ = .error e2 :=
  (errors_are_fatal ⟨fun p => .error (.repoOpen p)⟩
      ⟨fun _ => none, fun _ => none⟩
      ⟨["bad"], none, none, none, none⟩).2.1
    ⟨0, i64_MAX⟩ "bad" (.repoOpen "bad") rfl (by simp) rfl

theorem mem_branch_records (repo : RepoData) (rp bn : String) (tr : TimeRange)
    (author : Option String) (oids : List String) (oid : String) (c : CommitData)
    (ho : oid ∈ oids) (hc : repo.find_commit oid = .ok c)
    (ht : tr.start ≤ c.time ∧ c.time ≤ tr.«end»)
    (ha : ∀ a ∈ author, str_contains c.author a = true) :
    RepoAndCommit.new rp bn c ∈ branch_records repo rp bn tr author oids := by
  rw [branch_records]
  exact List.mem_filterMap.mpr ⟨oid, ho, by
    simp [hc, Except.toOption, keep_commit_eq_some rp bn tr author c ht ha]⟩

theorem countP_ge_two_of_two_mem {α : Type} (p : α → Bool) (l : List α) (a b : α)
    (hab : a ≠ b) (hpa : p a = true) (hpb : p b = true) :
    a ∈ l → b ∈ l → 2 ≤ l.countP p := by
  induction l with
  | nil => intro ha; cases ha
  | cons x rest ih =>
    intro ha hb
    rw [List.countP_cons]
    by_cases hax : a = x
    · subst hax
      have hbr : b ∈ rest := List.mem_of_ne_of_mem (fun h => hab h.symm) hb
      simp [hpa]
      exact ⟨b, hbr, hpb⟩
    · by_cases hbx : b = x
      · subst hbx
        have har : a ∈ rest := List.mem_of_ne_of_mem hax ha
        simp [hpb]
        exact ⟨a, har, hpa⟩
      · have har : a ∈ rest := List.mem_of_ne_of_mem hax ha
        have hbr : b ∈ rest := List.mem_of_ne_of_mem hbx hb
        have := ih har hbr
        omega

/-- C6: the walker does a full ancestry traversal from every local
branch tip with no deduplication across branches: a commit yielded by
the walks of two different branches appears in the output once per
branch, each record tagged with its respective branch name. -/
theorem no_dedup_across_branches (world : World) (repo : RepoData)
    (repo_path : String) (tr : TimeRange) (author : Option String)
    (bs : List BranchData) (b1 b2 : BranchData) (oid : String) (c : CommitData)
    (hopen : world.openRepo repo_path = .ok repo)
    (hbr : repo.branches = .ok (bs.map Except.ok))
    (hok : ∀ b ∈ bs, BranchOk repo b)
    (hb1 : b1 ∈ bs) (hb2 : b2 ∈ bs)
    (hne : branch_name_of b1 ≠ branch_name_of b2)
    (h1 : oid ∈ oids_of repo (tip_of b1))
    (h2 : oid ∈ oids_of repo (tip_of b2))
    (hc : repo.find_commit oid = .ok c)
    (ht : tr.start ≤ c.time ∧ c.time ≤ tr.«end»)
    (ha : ∀ a ∈ author, str_contains c.author a = true) :
    ∃ out, list_commits world repo_path tr author = .ok out ∧
      RepoAndCommit.new repo_path (branch_name_of b1) c ∈ out ∧
      RepoAndCommit.new repo_path (branch_name_of b2) c ∈ out ∧
      2 ≤ out.countP (fun r => r.commit == c.id) := by
  have hm1 : RepoAndCommit.new repo_path (branch_name_of b1) c ∈
      ((bs.map (fun b => branch_records repo repo_path (branch_name_of b) tr author
        (oids_of repo (tip_of b)))).flatten) := by
    apply List.mem_flatten.mpr
    exact ⟨_, List.mem_map_of_mem _ hb1,
      mem_branch_records repo repo_path (branch_name_of b1) tr author _ oid c
        h1 hc ht ha⟩
  have hm2 : RepoAndCommit.new repo_path (branch_name_of b2) c ∈
      ((bs.map (fun b => branch_records repo repo_path (branch_name_of b) tr author
        (oids_of repo (tip_of b)))).flatten) := by
    apply List.mem_flatten.mpr
    exact ⟨_, List.mem_map_of_mem _ hb2,
      mem_branch_records repo repo_path (branch_name_of b2) tr author _ oid c
        h2 hc ht ha⟩
  refine ⟨_, list_commits_ok world repo_path tr author repo bs hopen hbr hok,
    hm1, hm2, ?_⟩
  apply countP_ge_two_of_two_mem _ _ _ _ ?_ ?_ ?_ hm1 hm2
  · intro heq
    exact hne (congrArg RepoAndCommit.branch heq)
  · simp [new_commit_id]
  · simp [new_commit_id]

theorem no_dedup_across_branches_witness :
    ∃ out, list_commits world_fix "repo1" ⟨0, 1000⟩ none = .ok out ∧
      RepoAndCommit.new "repo1"
        (branch_name_of ⟨.ok (some "main"), .ok "t1"⟩) c_alice ∈ out ∧
      RepoAndCommit.new "repo1"
        (branch_name_of ⟨.ok (some "dev"), .ok "t2"⟩) c_alice ∈ out ∧
      2 ≤ out.countP (fun r => r.commit == c_alice.id) := by
  apply no_dedup_across_branches world_fix repo_fix "repo1" ⟨0, 1000⟩ none
    [⟨.ok (some "main"), .ok "t1"⟩, ⟨.ok (some "dev"), .ok "t2"⟩]
    ⟨.ok (some "main"), .ok "t1"⟩ ⟨.ok (some "dev"), .ok "t2"⟩ "aaa" c_alice
    rfl rfl ?_ (by simp) (by simp) (by decide) (by decide) (by decide) rfl
    (by decide) (by simp)
  intro b hb
  cases hb with
  | head =>
    exact ⟨⟨some "main", rfl⟩, ⟨"t1", rfl⟩, ⟨(), rfl⟩, ⟨(), rfl⟩, rfl, by
      intro o ho
      cases ho with
      | head => exact ⟨c_alice, rfl⟩
      | tail _ h3 =>
        cases h3 with
        | head => exact ⟨c_bob, rfl⟩
        | tail _ h4 => cases h4⟩
  | tail _ h2 =>
    cases h2 with
    | head =>
      exact ⟨⟨some "dev", rfl⟩, ⟨"t2", rfl⟩, ⟨(), rfl⟩, ⟨(), rfl⟩, rfl, by
        intro o ho
        cases ho with
        | head => exact ⟨c_alice, rfl⟩
        | tail _ h4 => cases h4⟩
    | tail _ h3 => cases h3

theorem group_by_cons_nil {α κ : Type} [DecidableEq κ] (key : α → κ) (x : α)
    (xs : List α) (h : group_by key xs = []) :
    group_by key (x :: xs) = [(key x, [x])] := by
  rw [group_by, h]

theorem group_by_cons_cons {α κ : Type} [DecidableEq κ] (key : α → κ) (x : α)
    (xs : List α) (k : κ) (g : List α) (rest : List (κ × List α))
    (h : group_by key xs = (k, g) :: rest) :
    group_by key (x :: xs) =
      if key x = k then (key x, x :: g) :: rest
      else (key x, [x]) :: (k, g) :: rest := by
  rw [group_by, h]

theorem group_by_flatten {α κ : Type} [DecidableEq κ] (key : α → κ) (l : List α) :
    ((group_by key l).map Prod.snd).flatten = l := by
  induction l with
  | nil => rfl
  | cons x xs ih =>
    cases hg : group_by key xs with
    | nil =>
      rw [hg] at ih
      simp at ih
      subst ih
      simp [group_by_cons_nil key x [] hg]
    | cons p rest =>
      obtain ⟨k, g⟩ := p
      rw [hg] at ih
      rw [group_by_cons_cons key x xs k g rest hg]
      by_cases hk : key x = k
      · rw [if_pos hk]
        simp only [List.map_cons, List.flatten_cons] at ih ⊢
        rw [← ih]
        simp
      · rw [if_neg hk]
        simp only [List.map_cons, List.flatten_cons] at ih ⊢
        rw [← ih]
        simp

theorem group_by_key_eq {α κ : Type} [DecidableEq κ] (key : α → κ) (l : List α) :
    ∀ p ∈ group_by key l, ∀ x ∈ p.2, key x = p.1 := by
  induction l with
  | nil => intro p hp; cases hp
  | cons x xs ih =>
    intro p hp y hy
    cases hg : group_by key xs with
    | nil =>
      rw [group_by_cons_nil key x xs hg] at hp
      simp at hp
      subst hp
      simp at hy
      subst hy
      rfl
    | cons q rest =>
      obtain ⟨k, g⟩ := q
      rw [group_by_cons_cons key x xs k g rest hg] at hp
      by_cases hk : key x = k
      · rw [if_pos hk] at hp
        rcases List.mem_cons.mp hp with h | h
        · subst h
          rcases List.mem_cons.mp hy with h2 | h2
          · subst h2; rfl
          · have h3 := ih (k, g) (by rw [hg]; exact List.mem_cons_self _ _) y h2
            simpa [hk] using h3
        · exact ih p (by rw [hg]; exact List.mem_cons_of_mem _ h) y hy
      · rw [if_neg hk] at hp
        rcases List.mem_cons.mp hp with h | h
        · subst h
          simp at hy
          subst hy
          rfl
        · exact ih p (by rw [hg]; exact h) y hy

theorem group_by_nonempty {α κ : Type} [DecidableEq κ] (key : α → κ) (l : List α) :
    ∀ p ∈ group_by key l, p.2 ≠ [] := by
  induction l with
  | nil => intro p hp; cases hp
  | cons x xs ih =>
    intro p hp
    cases hg : group_by key xs with
    | nil =>
      rw [group_by_cons_nil key x xs hg] at hp
      simp at hp
      subst hp
      simp
    | cons q rest =>
      obtain ⟨k, g⟩ := q
      rw [group_by_cons_cons key x xs k g rest hg] at hp
      by_cases hk : key x = k
      · rw [if_pos hk] at hp
        rcases List.mem_cons.mp hp with h | h
        · subst h; simp
        · exact ih p (by rw [hg]; exact List.mem_cons_of_mem _ h)
      · rw [if_neg hk] at hp
        rcases List.mem_cons.mp hp with h | h
        · subst h; simp
        · exact ih p (by rw [hg]; exact h)

theorem group_by_sublist {α κ : Type} [DecidableEq κ] (key : α → κ) (l : List α) :
    ∀ p ∈ group_by key l, List.Sublist p.2 l := by
  induction l with
  | nil => intro p hp; cases hp
  | cons x xs ih =>
    intro p hp
    cases hg : group_by key xs with
    | nil =>
      rw [group_by_cons_nil key x xs hg] at hp
      simp at hp
      subst hp
      simp
    | cons q rest =>
      obtain ⟨k, g⟩ := q
      rw [group_by_cons_cons key x xs k g rest hg] at hp
      by_cases hk : key x = k
      · rw [if_pos hk] at hp
        rcases List.mem_cons.mp hp with h | h
        · subst h
          exact (ih (k, g) (by rw [hg]; exact List.mem_cons_self _ _)).cons₂ x
        · exact ((ih p (by rw [hg]; exact List.mem_cons_of_mem _ h))).cons x
      · rw [if_neg hk] at hp
        rcases List.mem_cons.mp hp with h | h
        · subst h
          simp only
          exact List.Sublist.cons₂ x (List.nil_sublist xs)
        · exact (ih p (by rw [hg]; exact h)).cons x

theorem group_by_congr {α κ : Type} [DecidableEq κ] (k1 k2 : α → κ) (l : List α)
    (h : ∀ x ∈ l, k1 x = k2 x) : group_by k1 l = group_by k2 l := by
  induction l with
  | nil => rfl
  | cons x xs ih =>
    have ih2 := ih (fun y hy => h y (by simp [hy]))
    rw [group_by, group_by, ih2, h x (by simp)]

theorem group_by_comp_inj {α κ κ2 : Type} [DecidableEq κ] [DecidableEq κ2]
    (f : κ → κ2) (hf : ∀ a b, f a = f b → a = b) (key : α → κ) (l : List α) :
    group_by (fun x => f (key x)) l =
      (group_by key l).map (fun p => (f p.1, p.2)) := by
  induction l with
  | nil => rfl
  | cons x xs ih =>
    cases hg : group_by key xs with
    | nil =>
      rw [group_by_cons_nil key x xs hg]
      have h2 : group_by (fun y => f (key y)) xs = [] := by rw [ih, hg]; rfl
      rw [group_by_cons_nil _ x xs h2]
      rfl
    | cons q rest =>
      obtain ⟨k, g⟩ := q
      have h2 : group_by (fun y => f (key y)) xs =
          (f k, g) :: rest.map (fun p => (f p.1, p.2)) := by
        rw [ih, hg]
        rfl
      rw [group_by_cons_cons key x xs k g rest hg,
        group_by_cons_cons _ x xs (f k) g _ h2]
      by_cases hk : key x = k
      · rw [if_pos hk, if_pos (by rw [hk])]
        rfl
      · rw [if_neg hk, if_neg (fun hc => hk (hf _ _ hc))]
        rfl

theorem mapM_eq_some_map {α β : Type} (f : α → Option β) (g : α → β) (l : List α)
    (h : ∀ x ∈ l, f x = some (g x)) : l.mapM f = some (l.map g) := by
  induction l with
  | nil => rfl
  | cons x xs ih =>
    have ih2 := ih (fun y hy => h y (by simp [hy]))
    rw [List.mapM_cons, h x (by simp), ih2]
    rfl

theorem dateOpt_in_range (c : RepoAndCommit)
    (h : chrono_min_timestamp ≤ c.date ∧ c.date ≤ chrono_max_timestamp) :
    c.dateOpt = some c.date := by
  simp [RepoAndCommit.dateOpt, from_timestamp_opt, h.1, h.2]

theorem daily_record_line_eq (c : RepoAndCommit)
    (h : chrono_min_timestamp ≤ c.date ∧ c.date ≤ chrono_max_timestamp) :
    daily_record_line c = some (daily_line c) := by
  rw [daily_record_line, dateOpt_in_range c h]
  rfl

theorem daily_group_lines_eq (k : Int) (g : List RepoAndCommit)
    (h : ∀ c ∈ g, chrono_min_timestamp ≤ c.date ∧ c.date ≤ chrono_max_timestamp) :
    daily_group_lines (some k, g) = some (fmtDate k :: g.map daily_line) := by
  rw [daily_group_lines]
  rw [mapM_eq_some_map daily_record_line daily_line g
    (fun c hc => daily_record_line_eq c (h c hc))]
  rfl

theorem render_daily_eq (commits : List RepoAndCommit)
    (hrange : ∀ c ∈ commits,
      chrono_min_timestamp ≤ c.date ∧ c.date ≤ chrono_max_timestamp) :
    render_daily commits = some
      (((group_by (fun c => ndtDate c.date) commits).map
        (fun p => fmtDate p.1 :: p.2.map daily_line)).flatten) := by
  have hkey : group_by (fun c => c.dateOpt.map ndtDate) commits =
      group_by (fun c => some (ndtDate c.date)) commits :=
    group_by_congr _ _ _ (fun c hc => by rw [dateOpt_in_range c (hrange c hc)]; rfl)
  have hcomp : group_by (fun c : RepoAndCommit => some (ndtDate c.date)) commits =
      (group_by (fun c => ndtDate c.date) commits).map (fun p => (some p.1, p.2)) :=
    group_by_comp_inj some (fun a b hab => Option.some.inj hab) _ commits
  rw [render_daily, hkey, hcomp]
  rw [mapM_eq_some_map daily_group_lines
    (fun p => fmtDate (p.1.getD 0) :: p.2.map daily_line) _ ?hm]
  case hm =>
    intro p hp
    obtain ⟨q, hq, rfl⟩ := List.mem_map.mp hp
    have hsub := group_by_sublist (fun c => ndtDate c.date) commits q hq
    exact daily_group_lines_eq q.1 q.2
      (fun c hc => hrange c (hsub.subset hc))
  rw [Option.map_some']
  congr 1
  rw [List.map_map]
  rfl

/-- C8: in daily mode the already time-sorted records are grouped into
contiguous runs of equal calendar date in one linear pass: one date
header line per run followed by one line per record holding
time-of-day, repository path, branch name, summary and author with the
commit identifier omitted; every group holds only commits of its
calendar date, in timestamp order, and the groups concatenate back to
the input. -/
theorem daily_grouping (commits : List RepoAndCommit)
    (hrange : ∀ c ∈ commits,
      chrono_min_timestamp ≤ c.date ∧ c.date ≤ chrono_max_timestamp)
    (hsorted : List.Pairwise (fun a b => a.date ≤ b.date) commits) :
    render_daily commits = some
      (((group_by (fun c => ndtDate c.date) commits).map
        (fun p => fmtDate p.1 :: p.2.map daily_line)).flatten) ∧
    (∀ p ∈ group_by (fun c => ndtDate c.date) commits,
      p.2 ≠ [] ∧ (∀ c ∈ p.2, ndtDate c.date = p.1) ∧
      List.Pairwise (fun a b => a.date ≤ b.date) p.2) ∧
    ((group_by (fun c => ndtDate c.date) commits).map Prod.snd).flatten =
      commits := by
  refine ⟨render_daily_eq commits hrange, ?_, group_by_flatten _ _⟩
  intro p hp
  exact ⟨group_by_nonempty _ _ p hp, group_by_key_eq _ _ p hp,
    List.Pairwise.sublist (group_by_sublist _ _ p hp) hsorted⟩

theorem daily_grouping_witness :
    (render_daily [rec_a, rec_b] = some
      (((group_by (fun c => ndtDate c.date) [rec_a, rec_b]).map
        (fun p => fmtDate p.1 :: p.2.map daily_line)).flatten)) ∧
    (∀ p ∈ group_by (fun c => ndtDate c.date) [rec_a, rec_b],
      p.2 ≠ [] ∧ (∀ c ∈ p.2, ndtDate c.date = p.1) ∧
      List.Pairwise (fun a b => a.date ≤ b.date) p.2) ∧
    ((group_by (fun c => ndtDate c.date) [rec_a, rec_b]).map Prod.snd).flatten =
      [rec_a, rec_b] :=
  daily_grouping [rec_a, rec_b] (by decide) (by decide)

theorem flat_line_eq (c : RepoAndCommit)
    (h : chrono_min_timestamp ≤ c.date ∧ c.date ≤ chrono_max_timestamp) :
    flat_line c = some (flat_line_str c) := by
  rw [flat_line, dateOpt_in_range c h]
  rfl

theorem render_flat_eq (commits : List RepoAndCommit)
    (hrange : ∀ c ∈ commits,
      chrono_min_timestamp ≤ c.date ∧ c.date ≤ chrono_max_timestamp) :
    render_flat commits = some (commits.map flat_line_str) :=
  mapM_eq_some_map flat_line flat_line_str commits
    (fun c hc => flat_line_eq c (hrange c hc))

/-- C10: the timestamp-to-date conversion unwraps chrono's
`from_timestamp_opt`; for every record whose timestamp lies in chrono's
accepted range the conversion succeeds and neither render mode can
panic, while outside that range the conversion returns `none` (the
unwrap panics instead of returning an error). -/
theorem date_conversion_no_panic (commits : List RepoAndCommit)
    (hrange : ∀ c ∈ commits,
      chrono_min_timestamp ≤ c.date ∧ c.date ≤ chrono_max_timestamp) :
    (∀ c ∈ commits, c.dateOpt = some c.date) ∧
    (render_flat commits).isSome ∧
    (render_daily commits).isSome ∧
    (∀ t : Int, t < chrono_min_timestamp ∨ chrono_max_timestamp < t →
      from_timestamp_opt t = none) := by
  refine ⟨fun c hc => dateOpt_in_range c (hrange c hc), ?_, ?_, ?_⟩
  · rw [render_flat_eq commits hrange]
    simp
  · rw [render_daily_eq commits hrange]
    simp
  · intro t ht
    rw [from_timestamp_opt, if_neg (by omega)]

theorem date_conversion_no_panic_witness :
    (∀ c ∈ [rec_a], c.dateOpt = some c.date) ∧
    (render_flat [rec_a]).isSome ∧
    (render_daily [rec_a]).isSome ∧
    (∀ t : Int, t < chrono_min_timestamp ∨ chrono_max_timestamp < t →
      from_timestamp_opt t = none) :=
  date_conversion_no_panic [rec_a] (by decide)
